import Mathlib

/-
Shallow embedding of the vraftls repository (a replicated LSP gateway whose
back-end is a versioned virtual file system driven by a consensus log) and a
verification of the specification's claims about it.

Modelling conventions:
- Rust machine integers (u64) are modelled as Nat; no claim here depends on
  wrap-around, so no explicit modulus is threaded through.
- DashMap and BTreeMap are modelled as association lists (insertion order for
  DashMap, ascending key order for BTreeMap); RocksDB column families are also
  association lists sorted by key, which is faithful because the source stores
  8-byte big-endian keys precisely so that lexical order equals numeric order.
- The broadcast channel is modelled as the list of events sent so far.
- Timestamp.now reads a wall clock in the source; apply never branches on it,
  so every mutating operation takes the current time as an explicit argument.
- serde serialization round-trips are identities, so snapshots are passed as
  structured values instead of byte buffers.
-/

namespace VRaftLS

/-! ## Association-list maps

Model of the source's hash maps (DashMap) as association lists with
insertion-order iteration: insert replaces in place or appends, erase removes
the unique entry for a key. -/

def lookupA {κ α : Type} [DecidableEq κ] : List (κ × α) → κ → Option α
  | [], _ => none
  | (k, a) :: t, k' => if k = k' then some a else lookupA t k'

def insertA {κ α : Type} [DecidableEq κ] : List (κ × α) → κ → α → List (κ × α)
  | [], k, a => [(k, a)]
  | (k₀, a₀) :: t, k, a => if k₀ = k then (k, a) :: t else (k₀, a₀) :: insertA t k a

def eraseA {κ α : Type} [DecidableEq κ] : List (κ × α) → κ → List (κ × α)
  | [], _ => []
  | (k₀, a₀) :: t, k => if k₀ = k then t else (k₀, a₀) :: eraseA t k

/-- Model of DashMap.contains_key. -/
def containsKeyA {κ α : Type} [DecidableEq κ] (l : List (κ × α)) (k : κ) : Bool :=
  (lookupA l k).isSome

/-- Keys of an association list, in iteration order. -/
def keysA {κ α : Type} (l : List (κ × α)) : List κ :=
  l.map Prod.fst

/-! ## Core identifier types (vraftls-core/src/types.rs) -/

/-- Opaque file identifier, stable across renames. -/
structure FileId where
  id : Nat
deriving DecidableEq, Repr

def FileId.new (id : Nat) : FileId := ⟨id⟩

/-- Node identifier in the cluster. -/
structure NodeId where
  id : Nat
deriving DecidableEq, Repr

/-- Raft group identifier. -/
structure RaftGroupId where
  id : Nat
deriving DecidableEq, Repr

def RaftGroupId.new (id : Nat) : RaftGroupId := ⟨id⟩

/-- Client (editor) identifier. -/
structure ClientId where
  id : Nat
deriving DecidableEq, Repr

/-- Timestamp in milliseconds since the Unix epoch.  The source's
Timestamp.now() reads the system clock; operations below receive the current
time as an argument instead. -/
structure Timestamp where
  millis : Nat
deriving DecidableEq, Repr

/-- File version, incremented on each content change. -/
structure FileVersion where
  val : Nat
deriving DecidableEq, Repr

def FileVersion.initial : FileVersion := ⟨0⟩

def FileVersion.next (v : FileVersion) : FileVersion := ⟨v.val + 1⟩

/-! ## Paths (vraftls-vfs/src/path.rs) -/

/-- Splits a character list at every slash, keeping empty pieces; models how
std::path::Path iterates components of a Unix path string. -/
def splitSlashes : List Char → List Char → List String
  | [], acc => [String.mk acc.reverse]
  | c :: rest, acc =>
    if c = '/' then String.mk acc.reverse :: splitSlashes rest []
    else splitSlashes rest (c :: acc)

/-- One step of VfsPath::normalize: empty pieces and the root separator
contribute nothing (the component list is empty when the root is seen), a dot
is ignored, a dot-dot pops the last component, anything else is pushed. -/
def normalizeStep (acc : List String) (c : String) : List String :=
  if c = "" then acc
  else if c = "." then acc
  else if c = ".." then acc.dropLast
  else acc ++ [c]

/-- VfsPath::normalize from the source: fold the component pieces of the
textual path, collapsing dot, resolving dot-dot and dropping the root marker. -/
def VfsPath.normalize (path : String) : List String :=
  (splitSlashes path.data []).foldl normalizeStep []

/-- A virtual file path.  Equality is the derived structural equality of the
source (client id, normalized components, and the original string). -/
structure VfsPath where
  client_id : Option ClientId
  components : List String
  original : String
deriving DecidableEq, Repr

def VfsPath.new (path : String) : VfsPath :=
  ⟨none, VfsPath.normalize path, path⟩

def VfsPath.with_client (path : String) (c : ClientId) : VfsPath :=
  { VfsPath.new path with client_id := some c }

/-- Display / to_string of a VfsPath prints the original string. -/
def VfsPath.toStr (p : VfsPath) : String := p.original

/-! ## Files (vraftls-vfs/src/file.rs) -/

/-- Content storage mode. -/
inductive FileContent where
  | Loaded (s : String)
  | OnDisk (path : String)
  | Remote (node_id : NodeId) (offset : Nat) (length : Nat)
  | NotLoaded
deriving DecidableEq, Repr

def FileContent.as_str : FileContent → Option String
  | .Loaded s => some s
  | _ => none

def FileContent.is_loaded : FileContent → Bool
  | .Loaded _ => true
  | _ => false

/-- Checksum for file content verification. -/
structure Checksum where
  val : Nat
deriving DecidableEq, Repr

/-- Checksum::compute.  The source hashes the content with the std
DefaultHasher (SipHash); that hasher is external library code, so it is
modelled by a concrete deterministic 64-bit fold over the content's
characters.  No claim depends on particular hash values, only on the checksum
being a pure function of the content. -/
def Checksum.compute (content : String) : Checksum :=
  ⟨content.data.foldl (fun h c => (h * 31 + c.toNat) % (2 ^ 64)) 5381⟩

/-- Line ending style. -/
inductive LineEnding where
  | Lf
  | CrLf
  | Cr
deriving DecidableEq, Repr

/-- Substring test on character lists; models str::contains with a string
pattern. -/
def strContainsSeq : List Char → List Char → Bool
  | [], pat => pat.isEmpty
  | c :: rest, pat => pat.isPrefixOf (c :: rest) || strContainsSeq rest pat

/-- LineEnding::detect from the source: CRLF if the content contains a CRLF
anywhere, otherwise CR if it contains a CR, otherwise LF. -/
def LineEnding.detect (content : String) : LineEnding :=
  if strContainsSeq content.data ['\r', '\n'] then .CrLf
  else if content.data.contains '\r' then .Cr
  else .Lf

/-- Modelled from the spec: "detection prefers the first observed style" —
the style of the earliest line terminator (CR, CRLF, or LF) occurring in the
content, defaulting to LF when none occurs. -/
def LineEnding.firstObserved : List Char → LineEnding
  | [] => .Lf
  | '\r' :: '\n' :: _ => .CrLf
  | '\r' :: _ => .Cr
  | '\n' :: _ => .Lf
  | _ :: rest => firstObserved rest

/-- File metadata. -/
structure FileMetadata where
  read_only : Bool
  encoding : Option String
  line_ending : LineEnding
  attributes : List (String × String)
deriving DecidableEq, Repr

def FileMetadata.default : FileMetadata :=
  ⟨false, none, .Lf, []⟩

/-- A file in the virtual file system. -/
structure VfsFile where
  id : FileId
  path : VfsPath
  version : FileVersion
  content : FileContent
  checksum : Checksum
  last_modified : Timestamp
  owning_group : RaftGroupId
  metadata : FileMetadata
deriving DecidableEq, Repr

/-- VfsFile::new: version 0, loaded content, freshly computed checksum. -/
def VfsFile.new (id : FileId) (path : VfsPath) (content : String)
    (owning_group : RaftGroupId) (now : Timestamp) : VfsFile :=
  { id := id
    path := path
    version := FileVersion.initial
    content := .Loaded content
    checksum := Checksum.compute content
    last_modified := now
    owning_group := owning_group
    metadata := FileMetadata.default }

/-- VfsFile::update_content: recompute checksum, replace content, bump the
version, refresh the timestamp. -/
def VfsFile.update_content (f : VfsFile) (content : String) (now : Timestamp) : VfsFile :=
  { f with
    checksum := Checksum.compute content
    content := .Loaded content
    version := f.version.next
    last_modified := now }

/-- Type of file change. -/
inductive FileChangeType where
  | Created
  | Modified
  | Deleted
  | Renamed
deriving DecidableEq, Repr

/-- File change event broadcast on each mutation. -/
structure FileChangeEvent where
  change_type : FileChangeType
  file_id : FileId
  path : VfsPath
  version : FileVersion
  timestamp : Timestamp
deriving DecidableEq, Repr

/-! ## Commands and responses (vraftls-vfs/src/commands.rs) -/

/-- Error from VFS command execution. -/
inductive VfsCommandError where
  | FileNotFound (id : FileId)
  | FileAlreadyExists (path : String)
  | VersionMismatch (expected : Nat) (actual : Nat)
  | InvalidPath (path : String)
  | StorageError (msg : String)
deriving DecidableEq, Repr

/-- Operation in a batch write. -/
inductive BatchWriteOp where
  | Create (path : VfsPath) (content : String)
  | Update (file_id : FileId) (content : String)
  | Delete (file_id : FileId)
deriving DecidableEq, Repr

/-- Commands that can be applied to the VFS state machine. -/
inductive VfsCommand where
  | CreateFile (path : VfsPath) (content : String)
  | UpdateFile (file_id : FileId) (content : String) (expected_version : Option Nat)
  | DeleteFile (file_id : FileId)
  | RenameFile (file_id : FileId) (new_path : VfsPath)
  | BatchWrite (operations : List BatchWriteOp)
  | InvalidateCache (file_ids : List FileId)
deriving DecidableEq, Repr

/-- Result of a single batch operation. -/
inductive VfsBatchResult where
  | Success (id : Option FileId)
  | Error (e : VfsCommandError)
deriving DecidableEq, Repr

/-- Response from VFS command execution. -/
inductive VfsResponse where
  | Ok (id : Option FileId)
  | Created (id : FileId)
  | BatchResults (results : List VfsBatchResult)
  | Error (e : VfsCommandError)
deriving DecidableEq, Repr

/-! ## The VFS (vraftls-vfs/src/vfs.rs)

The files and path_index DashMaps become association lists, the atomic
next_file_id counter a Nat, and the broadcast sender the list of events sent
so far.  Each mutating method returns the updated VFS alongside the response
the source returns. -/

structure Vfs where
  files : List (FileId × VfsFile)
  path_index : List (VfsPath × FileId)
  next_file_id : Nat
  group_id : RaftGroupId
  events : List FileChangeEvent
deriving DecidableEq, Repr

/-- Vfs::new: empty maps, id counter starting at 1. -/
def Vfs.new (group_id : RaftGroupId) : Vfs :=
  { files := [], path_index := [], next_file_id := 1, group_id := group_id, events := [] }

/-- Vfs::create_file. -/
def Vfs.create_file (v : Vfs) (now : Timestamp) (path : VfsPath) (content : String) :
    Vfs × VfsResponse :=
  if containsKeyA v.path_index path then
    (v, .Error (.FileAlreadyExists path.toStr))
  else
    let file_id := FileId.new v.next_file_id
    let file := VfsFile.new file_id path content v.group_id now
    let v' := { v with
      files := insertA v.files file_id file
      path_index := insertA v.path_index path file_id
      next_file_id := v.next_file_id + 1
      events := v.events ++
        [{ change_type := .Created, file_id := file_id, path := path,
           version := FileVersion.initial, timestamp := now }] }
    (v', .Created file_id)

/-- Tail of Vfs::update_file shared by the guarded and unguarded paths:
replace the content, bump the version, emit the Modified event. -/
def Vfs.update_finish (v : Vfs) (now : Timestamp) (file_id : FileId) (file : VfsFile)
    (content : String) : Vfs × VfsResponse :=
  let file' := file.update_content content now
  let v' := { v with
    files := insertA v.files file_id file'
    events := v.events ++
      [{ change_type := .Modified, file_id := file_id, path := file.path,
         version := file'.version, timestamp := now }] }
  (v', .Ok (some file_id))

/-- Vfs::update_file. -/
def Vfs.update_file (v : Vfs) (now : Timestamp) (file_id : FileId) (content : String)
    (expected_version : Option Nat) : Vfs × VfsResponse :=
  match lookupA v.files file_id with
  | none => (v, .Error (.FileNotFound file_id))
  | some file =>
    match expected_version with
    | some expected =>
      if file.version.val ≠ expected then
        (v, .Error (.VersionMismatch expected file.version.val))
      else
        v.update_finish now file_id file content
    | none => v.update_finish now file_id file content

/-- Vfs::delete_file. -/
def Vfs.delete_file (v : Vfs) (now : Timestamp) (file_id : FileId) : Vfs × VfsResponse :=
  match lookupA v.files file_id with
  | none => (v, .Error (.FileNotFound file_id))
  | some file =>
    let v' := { v with
      files := eraseA v.files file_id
      path_index := eraseA v.path_index file.path
      events := v.events ++
        [{ change_type := .Deleted, file_id := file_id, path := file.path,
           version := file.version, timestamp := now }] }
    (v', .Ok none)

/-- Vfs::rename_file.  Note the occupied-path check consults the index before
the file itself is looked up, so renaming a file to its own current path hits
the FileAlreadyExists branch. -/
def Vfs.rename_file (v : Vfs) (now : Timestamp) (file_id : FileId) (new_path : VfsPath) :
    Vfs × VfsResponse :=
  if containsKeyA v.path_index new_path then
    (v, .Error (.FileAlreadyExists new_path.toStr))
  else
    match lookupA v.files file_id with
    | none => (v, .Error (.FileNotFound file_id))
    | some file =>
      let old_path := file.path
      let file' := { file with path := new_path, last_modified := now }
      let v' := { v with
        files := insertA v.files file_id file'
        path_index := insertA (eraseA v.path_index old_path) new_path file_id
        events := v.events ++
          [{ change_type := .Renamed, file_id := file_id, path := new_path,
             version := file.version, timestamp := now }] }
      (v', .Ok (some file_id))

/-- One operation of Vfs::batch_write, with the source's conversion of the
per-operation response into a VfsBatchResult. -/
def Vfs.apply_batch_op (v : Vfs) (now : Timestamp) : BatchWriteOp → Vfs × VfsBatchResult
  | .Create path content =>
    let (v', r) := v.create_file now path content
    (v', match r with
         | .Created id => .Success (some id)
         | .Error e => .Error e
         | _ => .Success none)
  | .Update file_id content =>
    let (v', r) := v.update_file now file_id content none
    (v', match r with
         | .Ok id => .Success id
         | .Error e => .Error e
         | _ => .Success none)
  | .Delete file_id =>
    let (v', r) := v.delete_file now file_id
    (v', match r with
         | .Ok _ => .Success none
         | .Error e => .Error e
         | _ => .Success none)

/-- Vfs::batch_write evaluates the operations strictly in order, threading the
state through regardless of per-operation errors. -/
def Vfs.batch_go (v : Vfs) (now : Timestamp) : List BatchWriteOp → Vfs × List VfsBatchResult
  | [] => (v, [])
  | op :: ops =>
    let (v₁, r) := v.apply_batch_op now op
    let (v₂, rs) := v₁.batch_go now ops
    (v₂, r :: rs)

/-- Vfs::batch_write. -/
def Vfs.batch_write (v : Vfs) (now : Timestamp) (operations : List BatchWriteOp) :
    Vfs × VfsResponse :=
  let (v', rs) := v.batch_go now operations
  (v', .BatchResults rs)

/-- Vfs::apply, the command dispatcher used by the Raft state machine.
The InvalidateCache arm does nothing (cache invalidation is handled
externally) and answers Ok(None). -/
def Vfs.apply (v : Vfs) (now : Timestamp) : VfsCommand → Vfs × VfsResponse
  | .CreateFile path content => v.create_file now path content
  | .UpdateFile file_id content expected_version =>
    v.update_file now file_id content expected_version
  | .DeleteFile file_id => v.delete_file now file_id
  | .RenameFile file_id new_path => v.rename_file now file_id new_path
  | .BatchWrite operations => v.batch_write now operations
  | .InvalidateCache _ => (v, .Ok none)

/-- Applying a sequence of commands, each with the wall-clock time at which it
was applied. -/
def Vfs.applyList (v : Vfs) : List (Timestamp × VfsCommand) → Vfs
  | [] => v
  | (now, c) :: cs => ((v.apply now c).1).applyList cs

/-- Vfs::get_file. -/
def Vfs.get_file (v : Vfs) (file_id : FileId) : Option VfsFile :=
  lookupA v.files file_id

/-- Vfs::all_file_ids. -/
def Vfs.all_file_ids (v : Vfs) : List FileId :=
  keysA v.files

/-! ## Raft types (vraftls-raft/src/types.rs, plus the openraft vocabulary
types the state machine and log store manipulate) -/

/-- Openraft log id: the id of the leader that proposed the entry (term and
node id) together with the entry's index. -/
structure LogId where
  term : Nat
  node_id : Nat
  index : Nat
deriving DecidableEq, Repr

/-- Openraft membership configuration.  Its internals are external library
code; the state machine only stores and compares it, so it is modelled as
opaque data. -/
structure MembershipCfg where
  cfg : Nat
deriving DecidableEq, Repr

/-- Openraft StoredMembership: the membership together with the log id of the
entry that installed it. -/
structure StoredMembership where
  log_id : Option LogId
  membership : MembershipCfg
deriving DecidableEq, Repr

/-- StoredMembership::default(). -/
def StoredMembership.empty : StoredMembership :=
  ⟨none, ⟨0⟩⟩

/-- Request recorded in a log entry. -/
structure VfsRequest where
  group_id : RaftGroupId
  command : VfsCommand
deriving DecidableEq, Repr

/-- Openraft entry payload. -/
inductive EntryPayload where
  | Blank
  | Normal (req : VfsRequest)
  | Membership (m : MembershipCfg)
deriving DecidableEq, Repr

/-- Openraft log entry. -/
structure Entry where
  log_id : LogId
  payload : EntryPayload
deriving DecidableEq, Repr

/-- Response from the state machine. -/
structure VfsStateMachineResponse where
  response : VfsResponse
deriving DecidableEq, Repr

/-! ## The VFS state machine (vraftls-raft/src/state_machine.rs) -/

structure VfsStateMachine where
  vfs : Vfs
  last_applied_log : Option LogId
  membership : StoredMembership
  group_id : RaftGroupId
deriving DecidableEq, Repr

/-- VfsStateMachine::new. -/
def VfsStateMachine.new (group_id : RaftGroupId) : VfsStateMachine :=
  { vfs := Vfs.new group_id
    last_applied_log := none
    membership := StoredMembership.empty
    group_id := group_id }

/-- One entry of RaftStateMachine::apply: first record the entry's log id as
last applied, then dispatch on the payload. -/
def VfsStateMachine.applyEntry (sm : VfsStateMachine) (now : Timestamp) (e : Entry) :
    VfsStateMachine × VfsStateMachineResponse :=
  let sm := { sm with last_applied_log := some e.log_id }
  match e.payload with
  | .Blank => (sm, ⟨.Ok none⟩)
  | .Normal req =>
    let (vfs', r) := sm.vfs.apply now req.command
    ({ sm with vfs := vfs' }, ⟨r⟩)
  | .Membership m =>
    ({ sm with membership := ⟨some e.log_id, m⟩ }, ⟨.Ok none⟩)

/-- RaftStateMachine::apply over a finite sequence of entries, each paired
with the wall-clock instant at which it was applied. -/
def VfsStateMachine.applyEntries (sm : VfsStateMachine) :
    List (Timestamp × Entry) → VfsStateMachine × List VfsStateMachineResponse
  | [] => (sm, [])
  | (now, e) :: es =>
    let (sm₁, r) := sm.applyEntry now e
    let (sm₂, rs) := sm₁.applyEntries es
    (sm₂, r :: rs)

/-- VFS state carried in a snapshot. -/
structure VfsSnapshotState where
  files : List VfsFile
deriving DecidableEq, Repr

/-- Snapshot data structure (the serde byte serialization round-trips, so the
snapshot travels as this structured value). -/
structure VfsSnapshot where
  last_applied_log : Option LogId
  membership : StoredMembership
  vfs_state : VfsSnapshotState
deriving DecidableEq, Repr

/-- RaftSnapshotBuilder::build_snapshot: record last applied log id and
membership and collect every file reachable from all_file_ids. -/
def VfsStateMachine.build_snapshot (sm : VfsStateMachine) : VfsSnapshot :=
  { last_applied_log := sm.last_applied_log
    membership := sm.membership
    vfs_state := ⟨(sm.vfs.all_file_ids).filterMap (fun id => sm.vfs.get_file id)⟩ }

/-- RaftStateMachine::install_snapshot: replace last applied log id and
membership wholesale, then re-apply a CreateFile for every file of the
snapshot (with the loaded content, or the empty string when the content is
not loaded) into the current VFS. -/
def VfsStateMachine.install_snapshot (sm : VfsStateMachine) (now : Timestamp)
    (snap : VfsSnapshot) : VfsStateMachine :=
  let sm := { sm with
    last_applied_log := snap.last_applied_log
    membership := snap.membership }
  { sm with
    vfs := snap.vfs_state.files.foldl
      (fun v f => (v.apply now (.CreateFile f.path (f.content.as_str.getD ""))).1)
      sm.vfs }

/-! ## Log storage (vraftls-raft/src/storage.rs)

The two RocksDB column families become association lists sorted by ascending
key — faithful to the source because the logs family is keyed by 8-byte
big-endian indices precisely so that lexical order is numeric order.  The
BTreeMap cache is the same sorted representation.  Only the key layout of the
meta family matters here: its three values live in the three dedicated
fields. -/

/-- Openraft vote (only stored and compared by this storage layer). -/
structure Vote where
  term : Nat
  node_id : Nat
  committed : Bool
deriving DecidableEq, Repr

/-- Value of u64::MAX; truncate uses it as the exclusive end of its
delete_range. -/
def U64MAX : Nat := 2 ^ 64 - 1

/-- Insert into a map sorted by ascending key, replacing an existing binding
(models both BTreeMap::insert and a RocksDB put). -/
def kvInsert {α : Type} : List (Nat × α) → Nat → α → List (Nat × α)
  | [], k, a => [(k, a)]
  | (k₀, a₀) :: t, k, a =>
    if k < k₀ then (k, a) :: (k₀, a₀) :: t
    else if k = k₀ then (k, a) :: t
    else (k₀, a₀) :: kvInsert t k a

/-- Last binding of a sorted map: BTreeMap::iter().next_back() and the RocksDB
seek_to_last iterator. -/
def kvLast {α : Type} (l : List (Nat × α)) : Option (Nat × α) :=
  l.getLast?

structure RocksDbLogStorage where
  log_cache : List (Nat × Entry)
  db_logs : List (Nat × Entry)
  vote : Option Vote
  committed : Option LogId
  last_purged : Option LogId
deriving DecidableEq, Repr

/-- A freshly created store over an empty database. -/
def RocksDbLogStorage.empty : RocksDbLogStorage :=
  { log_cache := [], db_logs := [], vote := none, committed := none, last_purged := none }

/-- RaftLogStorage::append: save each entry under its index in the logs
column family and mirror it into the cache; the flush callback is then
signalled with success. -/
def RocksDbLogStorage.append (s : RocksDbLogStorage) (entries : List Entry) :
    RocksDbLogStorage :=
  entries.foldl
    (fun s e =>
      { s with
        db_logs := kvInsert s.db_logs e.log_id.index e
        log_cache := kvInsert s.log_cache e.log_id.index e })
    s

/-- RaftLogStorage::truncate: drop indices ≥ log_id.index from the cache
(BTreeMap::split_off) and delete_range them from the store; the range's
exclusive end is the u64::MAX key, which delete_range itself never removes. -/
def RocksDbLogStorage.truncate (s : RocksDbLogStorage) (log_id : LogId) :
    RocksDbLogStorage :=
  { s with
    log_cache := s.log_cache.filter (fun p => p.1 < log_id.index)
    db_logs := s.db_logs.filter (fun p => ¬ (log_id.index ≤ p.1 ∧ p.1 < U64MAX)) }

/-- RaftLogStorage::purge: persist log_id as last purged, keep only cache
entries with keys ≥ index + 1, and delete the range below index + 1 from the
store. -/
def RocksDbLogStorage.purge (s : RocksDbLogStorage) (log_id : LogId) :
    RocksDbLogStorage :=
  { s with
    last_purged := some log_id
    log_cache := s.log_cache.filter (fun p => log_id.index + 1 ≤ p.1)
    db_logs := s.db_logs.filter (fun p => ¬ p.1 < log_id.index + 1) }

/-- Log state returned by get_log_state. -/
structure LogState where
  last_purged_log_id : Option LogId
  last_log_id : Option LogId
deriving DecidableEq, Repr

/-- RaftLogStorage::get_log_state: the last log id comes from the newest
cache entry, else from the last entry of the logs column family, else it
falls back to the last purged log id. -/
def RocksDbLogStorage.get_log_state (s : RocksDbLogStorage) : LogState :=
  let last_purged := s.last_purged
  let last_log_id :=
    match kvLast s.log_cache with
    | some (_, e) => some e.log_id
    | none =>
      match kvLast s.db_logs with
      | some (_, e) => some e.log_id
      | none => last_purged
  { last_purged_log_id := last_purged, last_log_id := last_log_id }

/-! ## Naive reference model of the log store (spec §4.2 and §8)

Modelled from the spec: an ordered list of live entries plus the last-purged
marker; append concatenates, truncate keeps the strict prefix below the given
index, purge remembers the marker and keeps the strict suffix above it, and
the log state reads the last live entry, falling back to the last purged id
when the log is empty. -/

structure RefLog where
  entries : List Entry
  last_purged : Option LogId
deriving DecidableEq, Repr

def RefLog.empty : RefLog := ⟨[], none⟩

def RefLog.append (r : RefLog) (es : List Entry) : RefLog :=
  { r with entries := r.entries ++ es }

def RefLog.truncate (r : RefLog) (log_id : LogId) : RefLog :=
  { r with entries := r.entries.filter (fun e => e.log_id.index < log_id.index) }

def RefLog.purge (r : RefLog) (log_id : LogId) : RefLog :=
  { entries := r.entries.filter (fun e => log_id.index < e.log_id.index)
    last_purged := some log_id }

def RefLog.log_state (r : RefLog) : LogState :=
  { last_purged_log_id := r.last_purged
    last_log_id :=
      match r.entries.getLast? with
      | some e => some e.log_id
      | none => r.last_purged }

/-- One log-store operation. -/
inductive LogOp where
  | append (es : List Entry)
  | truncate (log_id : LogId)
  | purge (log_id : LogId)
deriving DecidableEq, Repr

def RocksDbLogStorage.run (s : RocksDbLogStorage) : List LogOp → RocksDbLogStorage
  | [] => s
  | .append es :: ops => (s.append es).run ops
  | .truncate id :: ops => (s.truncate id).run ops
  | .purge id :: ops => (s.purge id).run ops

def RefLog.run (r : RefLog) : List LogOp → RefLog
  | [] => r
  | .append es :: ops => (r.append es).run ops
  | .truncate id :: ops => (r.truncate id).run ops
  | .purge id :: ops => (r.purge id).run ops

/-- Strictly ascending indices within one append batch. -/
def ascendingIndices : List Entry → Bool
  | [] => true
  | [_] => true
  | e₁ :: e₂ :: es => e₁.log_id.index < e₂.log_id.index && ascendingIndices (e₂ :: es)

/-- The log-storage contract of spec §4.2, tracked against the set of live
entries: every appended entry has an index strictly above every index still
present (append happens in increasing order for new entries, and overwrites a
prior index only after the truncate that removed it) and below the u64::MAX
key; each batch is itself strictly ascending. -/
def goodOps : List Entry → List LogOp → Bool
  | _, [] => true
  | cur, .append es :: ops =>
    ascendingIndices es &&
    es.all (fun e => e.log_id.index < U64MAX) &&
    es.all (fun e => cur.all (fun c => c.log_id.index < e.log_id.index)) &&
    goodOps (cur ++ es) ops
  | cur, .truncate id :: ops =>
    goodOps (cur.filter (fun e => e.log_id.index < id.index)) ops
  | cur, .purge id :: ops =>
    goodOps (cur.filter (fun e => id.index < e.log_id.index)) ops

/-! ## Invariants and simulation relations -/

/-- Well-formedness of a VFS state: the two maps have duplicate-free keys and
form a bijection (spec §3 invariant i), and every live file id is below the
next-id counter (ids are minted by fetch-and-add and never reused). -/
structure VfsInv (v : Vfs) : Prop where
  files_nodup : (keysA v.files).Nodup
  index_nodup : (keysA v.path_index).Nodup
  file_to_index : ∀ id f, lookupA v.files id = some f → lookupA v.path_index f.path = some id
  index_to_file : ∀ p id, lookupA v.path_index p = some id →
    ∃ f, lookupA v.files id = some f ∧ f.path = p
  ids_bounded : ∀ id, id ∈ keysA v.files → id.id < v.next_file_id

/-- The sorted-map image of an ordered entry list, keyed by log index. -/
def logMapOf (es : List Entry) : List (Nat × Entry) :=
  es.map (fun e => (e.log_id.index, e))

/-- Simulation relation between the RocksDB-backed log store and the naive
reference log: cache and column family both mirror the live entries in index
order, the purge markers agree, the live indices are strictly ascending, and
every live index is below the u64::MAX key. -/
structure LogRel (s : RocksDbLogStorage) (r : RefLog) : Prop where
  cache_eq : s.log_cache = logMapOf r.entries
  db_eq : s.db_logs = logMapOf r.entries
  purged_eq : s.last_purged = r.last_purged
  sorted : (r.entries.map (fun e => e.log_id.index)).Pairwise (· < ·)
  bounded : ∀ e ∈ r.entries, e.log_id.index < U64MAX

/-! ## Concrete states used to exercise the claims -/

/-- A VFS holding exactly file 1 at path /a.rs with version 0. -/
def vfsA : Vfs :=
  Vfs.applyList (Vfs.new ⟨1⟩) [(⟨0⟩, .CreateFile (VfsPath.new "/a.rs") "x")]

/-- A VFS holding exactly file 1 at path /a.rs with version 1 (created, then
updated once). -/
def vfsV1 : Vfs :=
  Vfs.applyList (Vfs.new ⟨1⟩)
    [(⟨0⟩, .CreateFile (VfsPath.new "/a.rs") "x"),
     (⟨0⟩, .UpdateFile ⟨1⟩ "y" (some 0))]

/-- A state machine that created /a.rs and then updated it once, so that its
single file has version 1. -/
def snapshotSourceSm : VfsStateMachine :=
  (VfsStateMachine.applyEntries (VfsStateMachine.new ⟨1⟩)
    [(⟨0⟩, ⟨⟨1, 1, 1⟩, .Normal ⟨⟨1⟩, .CreateFile (VfsPath.new "/a.rs") "x"⟩⟩),
     (⟨0⟩, ⟨⟨1, 1, 2⟩, .Normal ⟨⟨1⟩, .UpdateFile ⟨1⟩ "y" none⟩⟩)]).1

/-- The result of building a snapshot from snapshotSourceSm and installing it
into a fresh state machine. -/
def snapshotTargetSm : VfsStateMachine :=
  (VfsStateMachine.new ⟨1⟩).install_snapshot ⟨0⟩ snapshotSourceSm.build_snapshot

/-- Two blank log entries at indices 1 and 2 of term 1. -/
def c7e1 : Entry := ⟨⟨1, 1, 1⟩, .Blank⟩

def c7e2 : Entry := ⟨⟨1, 1, 2⟩, .Blank⟩

/-- A contract-respecting operation sequence: append 1 and 2, purge through
1, append 3, truncate from 3. -/
def c7ops : List LogOp :=
  [.append [c7e1, c7e2], .purge ⟨1, 1, 1⟩, .append [⟨⟨1, 1, 3⟩, .Blank⟩],
   .truncate ⟨1, 1, 3⟩]

/-- A store whose only entry has been purged, leaving the log empty with a
non-trivial purge marker. -/
def c7purged : RocksDbLogStorage :=
  (RocksDbLogStorage.empty.append [c7e1]).purge ⟨1, 1, 1⟩

/-! ## Theorems -/

/-- C10: applying InvalidateCache returns Ok(None) and leaves the file map,
the path index, the next-id counter and the event stream untouched (the whole
state is unchanged). -/
theorem C10_invalidate_cache_noop (v : Vfs) (now : Timestamp) (ids : List FileId) :
    v.apply now (.InvalidateCache ids) = (v, .Ok none) := rfl

/-- C2: when the expected version is present and differs from the stored
version, UpdateFile answers VersionMismatch carrying the stored version as
actual, and the entire state — file record, both maps, event stream — is
unchanged. -/
theorem C2_version_mismatch_frame (v : Vfs) (now : Timestamp) (id : FileId)
    (content : String) (expected : Nat) (f : VfsFile)
    (hf : lookupA v.files id = some f) (hne : f.version.val ≠ expected) :
    v.apply now (.UpdateFile id content (some expected)) =
      (v, .Error (.VersionMismatch expected f.version.val)) := by
  simp [Vfs.apply, Vfs.update_file, hf, hne]

/-- Concrete run of C2: file 1 of vfsV1 is at version 1, and a guarded update
expecting version 0 fails with VersionMismatch and no state change. -/
theorem C2_version_mismatch_witness :
    ∃ f, lookupA vfsV1.files ⟨1⟩ = some f ∧ f.version.val ≠ 0 ∧
      vfsV1.apply ⟨0⟩ (.UpdateFile ⟨1⟩ "z" (some 0)) =
        (vfsV1, .Error (.VersionMismatch 0 f.version.val)) := by
  refine ⟨_, rfl, by decide, ?_⟩
  exact C2_version_mismatch_frame vfsV1 ⟨0⟩ ⟨1⟩ "z" 0 _ rfl (by decide)

/-- C9: renaming an existing file to its own current path answers
FileAlreadyExists and changes nothing, because the occupied-path check reads
the path index before the file itself is considered. -/
theorem C9_rename_to_own_path (v : Vfs) (now : Timestamp) (id : FileId) (f : VfsFile)
    (hf : lookupA v.files id = some f) (hp : lookupA v.path_index f.path = some id) :
    v.apply now (.RenameFile id f.path) = (v, .Error (.FileAlreadyExists f.path.toStr)) := by
  simp [Vfs.apply, Vfs.rename_file, containsKeyA, hp]

/-- Concrete run of C9 on a one-file VFS. -/
theorem C9_rename_to_own_path_witness :
    ∃ f, lookupA vfsA.files ⟨1⟩ = some f ∧ lookupA vfsA.path_index f.path = some ⟨1⟩ ∧
      vfsA.apply ⟨0⟩ (.RenameFile ⟨1⟩ f.path) =
        (vfsA, .Error (.FileAlreadyExists f.path.toStr)) := by
  refine ⟨_, rfl, rfl, ?_⟩
  exact C9_rename_to_own_path vfsA ⟨0⟩ ⟨1⟩ _ rfl rfl

/-- C4, counterexample: the derived path equality also compares the original
string, so two paths with identical normalized components and client ids but
different spellings are not equal. -/
theorem C4_path_eq_counterexample :
    (VfsPath.new "/a/./b").components = (VfsPath.new "/a/b").components ∧
    (VfsPath.new "/a/./b").client_id = (VfsPath.new "/a/b").client_id ∧
    VfsPath.new "/a/./b" ≠ VfsPath.new "/a/b" := by decide

/-- C4, as amended: two VfsPath values are equal iff their client ids,
normalized component sequences and original strings are all equal. -/
theorem C4_path_eq_iff (p q : VfsPath) :
    p = q ↔ p.client_id = q.client_id ∧ p.components = q.components ∧
      p.original = q.original := by
  constructor
  · rintro rfl
    exact ⟨rfl, rfl, rfl⟩
  · obtain ⟨cp, mp, op⟩ := p
    obtain ⟨cq, mq, oq⟩ := q
    rintro ⟨h₁, h₂, h₃⟩
    simp_all

/-- C1: the snapshot round-trip is not the identity on observable state.  The
source state machine holds file 1 at version 1; building a snapshot and
installing it into a fresh state machine re-creates the file through
CreateFile, so the installed file is back at version 0 even though id, path,
last applied log id and membership survive. -/
theorem C1_snapshot_roundtrip_resets_version :
    (lookupA snapshotSourceSm.vfs.files ⟨1⟩).map (fun f => f.version.val) = some 1 ∧
    (lookupA snapshotTargetSm.vfs.files ⟨1⟩).map (fun f => f.version.val) = some 0 ∧
    (lookupA snapshotTargetSm.vfs.files ⟨1⟩).map (fun f => f.path) =
      (lookupA snapshotSourceSm.vfs.files ⟨1⟩).map (fun f => f.path) ∧
    snapshotTargetSm.last_applied_log = snapshotSourceSm.last_applied_log ∧
    snapshotTargetSm.membership = snapshotSourceSm.membership := by decide

/-- C8, counterexample: in a content whose first line terminator is a bare
LF, detect still answers CrLf because a CRLF occurs later. -/
theorem C8_detect_counterexample :
    LineEnding.detect "a\nb\r\n" = .CrLf ∧
    LineEnding.firstObserved ("a\nb\r\n").data = .Lf ∧
    LineEnding.detect "a\nb\r\n" ≠ LineEnding.firstObserved ("a\nb\r\n").data := by decide

/-- C6: batch writes are evaluated operation by operation in order and are
not atomic.  The response carries exactly one result per operation in the
same order; the state after an erroneous operation is the state it was handed
(its predecessors' effects stay committed) and evaluation proceeds with the
next operation; and the literal scenario of spec §8 holds: on an empty VFS,
Create /x, Update of a missing id, Create /y yield Success(1),
FileNotFound(999), Success(2), with both /x and /y existing afterwards. -/
theorem C6_batch_write_not_atomic :
    (∀ (v : Vfs) (now : Timestamp) (ops : List BatchWriteOp),
      (v.batch_go now ops).2.length = ops.length) ∧
    (∀ (v : Vfs) (now : Timestamp) (op : BatchWriteOp) (ops : List BatchWriteOp),
      v.batch_go now (op :: ops) =
        (((v.apply_batch_op now op).1.batch_go now ops).1,
         (v.apply_batch_op now op).2 :: ((v.apply_batch_op now op).1.batch_go now ops).2)) ∧
    (∀ now : Timestamp,
      (Vfs.apply (Vfs.new ⟨1⟩) now (.BatchWrite
          [.Create (VfsPath.new "/x") "", .Update ⟨999⟩ "", .Create (VfsPath.new "/y") ""])).2 =
        .BatchResults [.Success (some ⟨1⟩), .Error (.FileNotFound ⟨999⟩),
          .Success (some ⟨2⟩)] ∧
      containsKeyA (Vfs.apply (Vfs.new ⟨1⟩) now (.BatchWrite
          [.Create (VfsPath.new "/x") "", .Update ⟨999⟩ "", .Create (VfsPath.new "/y") ""])).1.path_index
        (VfsPath.new "/x") = true ∧
      containsKeyA (Vfs.apply (Vfs.new ⟨1⟩) now (.BatchWrite
          [.Create (VfsPath.new "/x") "", .Update ⟨999⟩ "", .Create (VfsPath.new "/y") ""])).1.path_index
        (VfsPath.new "/y") = true) := by
  refine ⟨?len, fun v now op ops => rfl, fun now => ⟨rfl, rfl, rfl⟩⟩
  intro v now ops
  induction ops generalizing v with
  | nil => rfl
  | cons op t ih => simp [Vfs.batch_go, ih]

/-! ### Association-list lemmas -/

theorem mem_keysA_of_lookupA {κ α : Type} [DecidableEq κ] {l : List (κ × α)} {k : κ} {a : α}
    (h : lookupA l k = some a) : k ∈ keysA l := by
  induction l with
  | nil => simp [lookupA] at h
  | cons p t ih =>
    obtain ⟨k₀, a₀⟩ := p
    by_cases e : k₀ = k
    · subst e
      simp [keysA]
    · rw [lookupA, if_neg e] at h
      simp only [keysA, List.map_cons, List.mem_cons]
      exact Or.inr (ih h)

theorem lookupA_eq_none_of_not_mem {κ α : Type} [DecidableEq κ] {l : List (κ × α)} {k : κ}
    (h : k ∉ keysA l) : lookupA l k = none := by
  cases hl : lookupA l k with
  | none => rfl
  | some a => exact absurd (mem_keysA_of_lookupA hl) h

theorem lookupA_insertA_self {κ α : Type} [DecidableEq κ] (l : List (κ × α)) (k : κ) (a : α) :
    lookupA (insertA l k a) k = some a := by
  induction l with
  | nil => simp [insertA, lookupA]
  | cons p t ih =>
    obtain ⟨k₀, a₀⟩ := p
    by_cases e : k₀ = k
    · simp [insertA, e, lookupA]
    · simp [insertA, e, lookupA, ih]

theorem lookupA_insertA_ne {κ α : Type} [DecidableEq κ] (l : List (κ × α)) {k k' : κ}
    (a : α) (h : k' ≠ k) : lookupA (insertA l k a) k' = lookupA l k' := by
  induction l with
  | nil => simp [insertA, lookupA, Ne.symm h]
  | cons p t ih =>
    obtain ⟨k₀, a₀⟩ := p
    by_cases e : k₀ = k
    · subst e
      simp [insertA, lookupA, Ne.symm h]
    · by_cases e' : k₀ = k'
      · subst e'
        simp [insertA, e, lookupA, h]
      · simp [insertA, e, lookupA, e', ih]

theorem lookupA_eraseA_ne {κ α : Type} [DecidableEq κ] (l : List (κ × α)) {k k' : κ}
    (h : k' ≠ k) : lookupA (eraseA l k) k' = lookupA l k' := by
  induction l with
  | nil => rfl
  | cons p t ih =>
    obtain ⟨k₀, a₀⟩ := p
    by_cases e : k₀ = k
    · subst e
      have : k₀ ≠ k' := Ne.symm h
      simp [eraseA, lookupA, this]
    · by_cases e' : k₀ = k'
      · subst e'
        simp [eraseA, e, lookupA]
      · simp [eraseA, e, lookupA, e', ih]

theorem lookupA_eraseA_self {κ α : Type} [DecidableEq κ] {l : List (κ × α)}
    (h : (keysA l).Nodup) (k : κ) : lookupA (eraseA l k) k = none := by
  induction l with
  | nil => rfl
  | cons p t ih =>
    obtain ⟨k₀, a₀⟩ := p
    simp only [keysA, List.map_cons, List.nodup_cons] at h
    by_cases e : k₀ = k
    · subst e
      simp only [eraseA, if_pos rfl]
      exact lookupA_eq_none_of_not_mem h.1
    · simp [eraseA, e, lookupA, ih h.2]

theorem keysA_insertA {κ α : Type} [DecidableEq κ] (l : List (κ × α)) (k : κ) (a : α) :
    keysA (insertA l k a) = if k ∈ keysA l then keysA l else keysA l ++ [k] := by
  induction l with
  | nil => simp [insertA, keysA]
  | cons p t ih =>
    obtain ⟨k₀, a₀⟩ := p
    by_cases e : k₀ = k
    · subst e
      simp [insertA, keysA]
    · simp only [insertA, if_neg e, keysA, List.map_cons]
      have ih' := ih
      simp only [keysA] at ih'
      have hc : (k ∈ k₀ :: List.map Prod.fst t) ↔ (k ∈ List.map Prod.fst t) := by
        simp [List.mem_cons, Ne.symm e]
      by_cases hm : k ∈ List.map Prod.fst t
      · rw [if_pos (hc.mpr hm), ih', if_pos hm]
      · rw [if_neg (fun hh => hm (hc.mp hh)), ih', if_neg hm]
        rfl

theorem mem_keysA_insertA {κ α : Type} [DecidableEq κ] {l : List (κ × α)} {k k' : κ} {a : α} :
    k' ∈ keysA (insertA l k a) ↔ k' = k ∨ k' ∈ keysA l := by
  rw [keysA_insertA]
  by_cases hm : k ∈ keysA l
  · simp only [if_pos hm]
    constructor
    · exact Or.inr
    · rintro (rfl | h)
      · exact hm
      · exact h
  · simp [if_neg hm, or_comm]

theorem nodup_keysA_insertA {κ α : Type} [DecidableEq κ] {l : List (κ × α)} (k : κ) (a : α)
    (h : (keysA l).Nodup) : (keysA (insertA l k a)).Nodup := by
  rw [keysA_insertA]
  by_cases hm : k ∈ keysA l
  · simpa [hm]
  · simp [hm, List.nodup_append, h]

theorem keysA_eraseA_sublist {κ α : Type} [DecidableEq κ] (l : List (κ × α)) (k : κ) :
    List.Sublist (keysA (eraseA l k)) (keysA l) := by
  induction l with
  | nil => simp [eraseA]
  | cons p t ih =>
    obtain ⟨k₀, a₀⟩ := p
    by_cases e : k₀ = k
    · simpa [eraseA, e, keysA] using List.sublist_cons_self k₀ (List.map Prod.fst t)
    · simpa [eraseA, e, keysA] using ih.cons₂ k₀

theorem nodup_keysA_eraseA {κ α : Type} [DecidableEq κ] {l : List (κ × α)} (k : κ)
    (h : (keysA l).Nodup) : (keysA (eraseA l k)).Nodup :=
  h.sublist (keysA_eraseA_sublist l k)

theorem mem_keysA_of_eraseA {κ α : Type} [DecidableEq κ] {l : List (κ × α)} {k k' : κ}
    (h : k' ∈ keysA (eraseA l k)) : k' ∈ keysA l :=
  (keysA_eraseA_sublist l k).mem h

/-! ### Characterizations of the VFS operations -/

theorem create_file_occupied {v : Vfs} (now : Timestamp) {p : VfsPath} (c : String)
    {id : FileId} (hp : lookupA v.path_index p = some id) :
    v.create_file now p c = (v, .Error (.FileAlreadyExists p.toStr)) := by
  simp [Vfs.create_file, containsKeyA, hp]

theorem create_file_fresh {v : Vfs} (now : Timestamp) {p : VfsPath} (c : String)
    (hp : lookupA v.path_index p = none) :
    v.create_file now p c =
      ({ v with
          files := insertA v.files (FileId.new v.next_file_id)
            (VfsFile.new (FileId.new v.next_file_id) p c v.group_id now)
          path_index := insertA v.path_index p (FileId.new v.next_file_id)
          next_file_id := v.next_file_id + 1
          events := v.events ++
            [{ change_type := .Created, file_id := FileId.new v.next_file_id, path := p,
               version := FileVersion.initial, timestamp := now }] },
        .Created (FileId.new v.next_file_id)) := by
  simp [Vfs.create_file, containsKeyA, hp]

theorem update_file_notfound {v : Vfs} (now : Timestamp) {id : FileId} (c : String)
    (ev : Option Nat) (hf : lookupA v.files id = none) :
    v.update_file now id c ev = (v, .Error (.FileNotFound id)) := by
  simp [Vfs.update_file, hf]

theorem update_finish_eq (v : Vfs) (now : Timestamp) (id : FileId) (f : VfsFile)
    (c : String) :
    v.update_finish now id f c =
      ({ v with
          files := insertA v.files id (f.update_content c now)
          events := v.events ++
            [{ change_type := .Modified, file_id := id, path := f.path,
               version := (f.update_content c now).version, timestamp := now }] },
        .Ok (some id)) := rfl

theorem update_file_unguarded {v : Vfs} (now : Timestamp) {id : FileId} (c : String)
    {f : VfsFile} (hf : lookupA v.files id = some f) :
    v.update_file now id c none = v.update_finish now id f c := by
  simp [Vfs.update_file, hf]

theorem update_file_guard_pass {v : Vfs} (now : Timestamp) {id : FileId} (c : String)
    {f : VfsFile} {e : Nat} (hf : lookupA v.files id = some f)
    (he : f.version.val = e) :
    v.update_file now id c (some e) = v.update_finish now id f c := by
  simp [Vfs.update_file, hf, he]

theorem delete_file_notfound {v : Vfs} (now : Timestamp) {id : FileId}
    (hf : lookupA v.files id = none) :
    v.delete_file now id = (v, .Error (.FileNotFound id)) := by
  simp [Vfs.delete_file, hf]

theorem delete_file_found {v : Vfs} (now : Timestamp) {id : FileId} {f : VfsFile}
    (hf : lookupA v.files id = some f) :
    v.delete_file now id =
      ({ v with
          files := eraseA v.files id
          path_index := eraseA v.path_index f.path
          events := v.events ++
            [{ change_type := .Deleted, file_id := id, path := f.path,
               version := f.version, timestamp := now }] },
        .Ok none) := by
  simp [Vfs.delete_file, hf]

theorem rename_file_occupied {v : Vfs} (now : Timestamp) (id : FileId) {np : VfsPath}
    {id' : FileId} (hp : lookupA v.path_index np = some id') :
    v.rename_file now id np = (v, .Error (.FileAlreadyExists np.toStr)) := by
  simp [Vfs.rename_file, containsKeyA, hp]

theorem rename_file_notfound {v : Vfs} (now : Timestamp) {id : FileId} {np : VfsPath}
    (hp : lookupA v.path_index np = none) (hf : lookupA v.files id = none) :
    v.rename_file now id np = (v, .Error (.FileNotFound id)) := by
  simp [Vfs.rename_file, containsKeyA, hp, hf]

theorem rename_file_ok {v : Vfs} (now : Timestamp) {id : FileId} {np : VfsPath}
    {f : VfsFile} (hp : lookupA v.path_index np = none)
    (hf : lookupA v.files id = some f) :
    v.rename_file now id np =
      ({ v with
          files := insertA v.files id { f with path := np, last_modified := now }
          path_index := insertA (eraseA v.path_index f.path) np id
          events := v.events ++
            [{ change_type := .Renamed, file_id := id, path := np,
               version := f.version, timestamp := now }] },
        .Ok (some id)) := by
  simp [Vfs.rename_file, containsKeyA, hp, hf]

/-! ### Preservation of the VFS invariant -/

theorem vfsInv_new (g : RaftGroupId) : VfsInv (Vfs.new g) := by
  refine ⟨?_, ?_, ?_, ?_, ?_⟩ <;> simp [Vfs.new, keysA, lookupA]

theorem vfsInv_create {v : Vfs} (now : Timestamp) (p : VfsPath) (c : String)
    (h : VfsInv v) : VfsInv (v.create_file now p c).1 := by
  cases hp : lookupA v.path_index p with
  | some id =>
    rw [create_file_occupied now c hp]
    exact h
  | none =>
    rw [create_file_fresh now c hp]
    set fid := FileId.new v.next_file_id with hfid_def
    have hfid : fid ∉ keysA v.files := by
      intro hm
      have hb := h.ids_bounded fid hm
      rw [hfid_def] at hb
      exact absurd hb (Nat.lt_irrefl _)
    refine ⟨?_, ?_, ?_, ?_, ?_⟩
    · exact nodup_keysA_insertA _ _ h.files_nodup
    · exact nodup_keysA_insertA _ _ h.index_nodup
    · intro id f hf
      by_cases e : id = fid
      · subst e
        rw [lookupA_insertA_self] at hf
        injection hf with hf
        subst hf
        simpa [VfsFile.new] using lookupA_insertA_self v.path_index p fid
      · rw [lookupA_insertA_ne _ _ e] at hf
        have old := h.file_to_index id f hf
        have hnep : f.path ≠ p := by
          intro ep
          rw [ep, hp] at old
          cases old
        rw [lookupA_insertA_ne _ _ hnep]
        exact old
    · intro q id hq
      by_cases e : q = p
      · subst e
        rw [lookupA_insertA_self] at hq
        injection hq with hq
        subst hq
        exact ⟨_, lookupA_insertA_self _ _ _, rfl⟩
      · rw [lookupA_insertA_ne _ _ e] at hq
        obtain ⟨f, hf, hfp⟩ := h.index_to_file q id hq
        have hne : id ≠ fid := fun ei => hfid (ei ▸ mem_keysA_of_lookupA hf)
        refine ⟨f, ?_, hfp⟩
        rw [lookupA_insertA_ne _ _ hne]
        exact hf
    · intro id hm
      rcases mem_keysA_insertA.mp hm with rfl | hm'
      · rw [hfid_def]
        exact Nat.lt_succ_self _
      · exact Nat.lt_succ_of_lt (h.ids_bounded id hm')

theorem vfsInv_update_finish {v : Vfs} (now : Timestamp) {id : FileId} (c : String)
    {f : VfsFile} (hf : lookupA v.files id = some f) (h : VfsInv v) :
    VfsInv (v.update_finish now id f c).1 := by
  rw [update_finish_eq]
  refine ⟨nodup_keysA_insertA _ _ h.files_nodup, h.index_nodup, ?_, ?_, ?_⟩
  · intro id' g hg
    by_cases e : id' = id
    · subst e
      rw [lookupA_insertA_self] at hg
      injection hg with hg
      subst hg
      simpa [VfsFile.update_content] using h.file_to_index id' f hf
    · rw [lookupA_insertA_ne _ _ e] at hg
      exact h.file_to_index id' g hg
  · intro q id' hq
    obtain ⟨g, hg, hgp⟩ := h.index_to_file q id' hq
    by_cases e : id' = id
    · subst e
      rw [hf] at hg
      injection hg with hg
      subst hg
      refine ⟨f.update_content c now, lookupA_insertA_self _ _ _, ?_⟩
      simpa [VfsFile.update_content] using hgp
    · refine ⟨g, ?_, hgp⟩
      rw [lookupA_insertA_ne _ _ e]
      exact hg
  · intro id' hm
    rcases mem_keysA_insertA.mp hm with rfl | hm'
    · exact h.ids_bounded id' (mem_keysA_of_lookupA hf)
    · exact h.ids_bounded id' hm'

theorem vfsInv_update {v : Vfs} (now : Timestamp) (id : FileId) (c : String)
    (ev : Option Nat) (h : VfsInv v) : VfsInv (v.update_file now id c ev).1 := by
  cases hf : lookupA v.files id with
  | none =>
    rw [update_file_notfound now c ev hf]
    exact h
  | some f =>
    cases ev with
    | none =>
      rw [update_file_unguarded now c hf]
      exact vfsInv_update_finish now c hf h
    | some e =>
      by_cases he : f.version.val = e
      · rw [update_file_guard_pass now c hf he]
        exact vfsInv_update_finish now c hf h
      · have heq : v.update_file now id c (some e) =
            (v, .Error (.VersionMismatch e f.version.val)) := by
          simp [Vfs.update_file, hf, he]
        rw [heq]
        exact h

theorem vfsInv_delete {v : Vfs} (now : Timestamp) (id : FileId) (h : VfsInv v) :
    VfsInv (v.delete_file now id).1 := by
  cases hf : lookupA v.files id with
  | none =>
    rw [delete_file_notfound now hf]
    exact h
  | some f =>
    rw [delete_file_found now hf]
    refine ⟨nodup_keysA_eraseA _ h.files_nodup, nodup_keysA_eraseA _ h.index_nodup,
      ?_, ?_, ?_⟩
    · intro id' g hg
      have hne : id' ≠ id := by
        intro e
        subst e
        rw [lookupA_eraseA_self h.files_nodup] at hg
        cases hg
      rw [lookupA_eraseA_ne _ hne] at hg
      have old := h.file_to_index id' g hg
      have hnep : g.path ≠ f.path := by
        intro e
        rw [e] at old
        rw [h.file_to_index id f hf] at old
        injection old with old
        exact hne old.symm
      rw [lookupA_eraseA_ne _ hnep]
      exact old
    · intro q id' hq
      have hnq : q ≠ f.path := by
        intro e
        subst e
        rw [lookupA_eraseA_self h.index_nodup] at hq
        cases hq
      rw [lookupA_eraseA_ne _ hnq] at hq
      obtain ⟨g, hg, hgp⟩ := h.index_to_file q id' hq
      have hne : id' ≠ id := by
        intro e
        subst e
        rw [hf] at hg
        injection hg with hg
        subst hg
        exact hnq hgp.symm
      refine ⟨g, ?_, hgp⟩
      rw [lookupA_eraseA_ne _ hne]
      exact hg
    · intro id' hm
      exact h.ids_bounded id' (mem_keysA_of_eraseA hm)

theorem vfsInv_rename {v : Vfs} (now : Timestamp) (id : FileId) (np : VfsPath)
    (h : VfsInv v) : VfsInv (v.rename_file now id np).1 := by
  cases hp : lookupA v.path_index np with
  | some id' =>
    rw [rename_file_occupied now id hp]
    exact h
  | none =>
    cases hf : lookupA v.files id with
    | none =>
      rw [rename_file_notfound now hp hf]
      exact h
    | some f =>
      rw [rename_file_ok now hp hf]
      have hidx := h.file_to_index id f hf
      refine ⟨nodup_keysA_insertA _ _ h.files_nodup,
        nodup_keysA_insertA _ _ (nodup_keysA_eraseA _ h.index_nodup), ?_, ?_, ?_⟩
      · intro id' g hg
        by_cases e : id' = id
        · subst e
          rw [lookupA_insertA_self] at hg
          injection hg with hg
          subst hg
          simpa using lookupA_insertA_self (eraseA v.path_index f.path) np id'
        · rw [lookupA_insertA_ne _ _ e] at hg
          have old := h.file_to_index id' g hg
          have hne_np : g.path ≠ np := by
            intro eq
            rw [eq, hp] at old
            cases old
          have hne_fp : g.path ≠ f.path := by
            intro eq
            rw [eq, hidx] at old
            injection old with old
            exact e old.symm
          rw [lookupA_insertA_ne _ _ hne_np, lookupA_eraseA_ne _ hne_fp]
          exact old
      · intro q id' hq
        by_cases e : q = np
        · subst e
          rw [lookupA_insertA_self] at hq
          injection hq with hq
          subst hq
          exact ⟨{ f with path := q, last_modified := now },
            lookupA_insertA_self _ _ _, rfl⟩
        · rw [lookupA_insertA_ne _ _ e] at hq
          have hqf : q ≠ f.path := by
            intro eq
            subst eq
            rw [lookupA_eraseA_self h.index_nodup] at hq
            cases hq
          rw [lookupA_eraseA_ne _ hqf] at hq
          obtain ⟨g, hg, hgp⟩ := h.index_to_file q id' hq
          have hne : id' ≠ id := by
            intro eq
            subst eq
            rw [hf] at hg
            injection hg with hg
            subst hg
            exact hqf hgp.symm
          refine ⟨g, ?_, hgp⟩
          rw [lookupA_insertA_ne _ _ hne]
          exact hg
      · intro id' hm
        rcases mem_keysA_insertA.mp hm with rfl | hm'
        · exact h.ids_bounded id' (mem_keysA_of_lookupA hf)
        · exact h.ids_bounded id' hm'

theorem vfsInv_batch_op {v : Vfs} (now : Timestamp) (op : BatchWriteOp) (h : VfsInv v) :
    VfsInv (v.apply_batch_op now op).1 := by
  cases op with
  | Create p c => simpa [Vfs.apply_batch_op] using vfsInv_create now p c h
  | Update id c => simpa [Vfs.apply_batch_op] using vfsInv_update now id c none h
  | Delete id => simpa [Vfs.apply_batch_op] using vfsInv_delete now id h

theorem vfsInv_batch_go {v : Vfs} (now : Timestamp) (ops : List BatchWriteOp)
    (h : VfsInv v) : VfsInv (v.batch_go now ops).1 := by
  induction ops generalizing v with
  | nil => exact h
  | cons op t ih =>
    simpa [Vfs.batch_go] using ih (vfsInv_batch_op now op h)

theorem vfsInv_apply {v : Vfs} (now : Timestamp) (c : VfsCommand) (h : VfsInv v) :
    VfsInv (v.apply now c).1 := by
  cases c with
  | CreateFile p c => exact vfsInv_create now p c h
  | UpdateFile id c ev => exact vfsInv_update now id c ev h
  | DeleteFile id => exact vfsInv_delete now id h
  | RenameFile id np => exact vfsInv_rename now id np h
  | BatchWrite ops => simpa [Vfs.apply, Vfs.batch_write] using vfsInv_batch_go now ops h
  | InvalidateCache ids => exact h

theorem vfsInv_applyList {v : Vfs} (cs : List (Timestamp × VfsCommand)) (h : VfsInv v) :
    VfsInv (v.applyList cs) := by
  induction cs generalizing v with
  | nil => exact h
  | cons c t ih =>
    obtain ⟨now, cmd⟩ := c
    exact ih (vfsInv_apply now cmd h)

/-- C3: in every state reachable by applying a sequence of commands to a
fresh VFS, the file map and the path index form a bijection: every live file
is indexed under its path, and every index entry points at a live file with
that path. -/
theorem C3_file_map_path_index_bijection (g : RaftGroupId)
    (cmds : List (Timestamp × VfsCommand)) :
    (∀ id f, lookupA ((Vfs.new g).applyList cmds).files id = some f →
      lookupA ((Vfs.new g).applyList cmds).path_index f.path = some id) ∧
    (∀ p id, lookupA ((Vfs.new g).applyList cmds).path_index p = some id →
      ∃ f, lookupA ((Vfs.new g).applyList cmds).files id = some f ∧ f.path = p) := by
  have h := vfsInv_applyList cmds (vfsInv_new g)
  exact ⟨h.file_to_index, h.index_to_file⟩

/-- Concrete run of C3: in the one-file VFS, the index entry for /a.rs points
at a live file whose path is /a.rs. -/
theorem C3_bijection_witness :
    ∃ f, lookupA vfsA.files ⟨1⟩ = some f ∧ f.path = VfsPath.new "/a.rs" :=
  (C3_file_map_path_index_bijection ⟨1⟩
    [(⟨0⟩, .CreateFile (VfsPath.new "/a.rs") "x")]).2
    (VfsPath.new "/a.rs") ⟨1⟩ (by decide)

/-! ### Version semantics -/

theorem eq_version_le {f f' : VfsFile} (h : some f = some f') :
    f.version.val ≤ f'.version.val := by
  injection h with h
  rw [h]

theorem next_mono_create {v : Vfs} (now : Timestamp) (p : VfsPath) (c : String) :
    v.next_file_id ≤ (v.create_file now p c).1.next_file_id := by
  cases hp : lookupA v.path_index p with
  | some i =>
    rw [create_file_occupied now c hp]
  | none =>
    rw [create_file_fresh now c hp]
    exact Nat.le_succ _

theorem next_eq_update {v : Vfs} (now : Timestamp) (id : FileId) (c : String)
    (ev : Option Nat) : (v.update_file now id c ev).1.next_file_id = v.next_file_id := by
  cases hf : lookupA v.files id with
  | none => rw [update_file_notfound now c ev hf]
  | some f =>
    have hfin : (v.update_finish now id f c).1.next_file_id = v.next_file_id := rfl
    cases ev with
    | none => rw [update_file_unguarded now c hf, hfin]
    | some e =>
      by_cases he : f.version.val = e
      · rw [update_file_guard_pass now c hf he, hfin]
      · have heq : v.update_file now id c (some e) =
            (v, .Error (.VersionMismatch e f.version.val)) := by
          simp [Vfs.update_file, hf, he]
        rw [heq]

theorem next_eq_delete {v : Vfs} (now : Timestamp) (id : FileId) :
    (v.delete_file now id).1.next_file_id = v.next_file_id := by
  cases hf : lookupA v.files id with
  | none => rw [delete_file_notfound now hf]
  | some f => rw [delete_file_found now hf]

theorem next_eq_rename {v : Vfs} (now : Timestamp) (id : FileId) (np : VfsPath) :
    (v.rename_file now id np).1.next_file_id = v.next_file_id := by
  cases hp : lookupA v.path_index np with
  | some i => rw [rename_file_occupied now id hp]
  | none =>
    cases hf : lookupA v.files id with
    | none => rw [rename_file_notfound now hp hf]
    | some f => rw [rename_file_ok now hp hf]

theorem next_mono_batch_op {v : Vfs} (now : Timestamp) (op : BatchWriteOp) :
    v.next_file_id ≤ (v.apply_batch_op now op).1.next_file_id := by
  cases op with
  | Create p c => exact next_mono_create now p c
  | Update id c => exact Nat.le_of_eq (next_eq_update now id c none).symm
  | Delete id => exact Nat.le_of_eq (next_eq_delete now id).symm

theorem next_mono_batch_go {v : Vfs} (now : Timestamp) (ops : List BatchWriteOp) :
    v.next_file_id ≤ (v.batch_go now ops).1.next_file_id := by
  induction ops generalizing v with
  | nil => exact Nat.le_refl _
  | cons op t ih => exact Nat.le_trans (next_mono_batch_op now op) (ih (v := _))

theorem next_mono_apply {v : Vfs} (now : Timestamp) (c : VfsCommand) :
    v.next_file_id ≤ (v.apply now c).1.next_file_id := by
  cases c with
  | CreateFile p cc => exact next_mono_create now p cc
  | UpdateFile id cc ev => exact Nat.le_of_eq (next_eq_update now id cc ev).symm
  | DeleteFile id => exact Nat.le_of_eq (next_eq_delete now id).symm
  | RenameFile id np => exact Nat.le_of_eq (next_eq_rename now id np).symm
  | BatchWrite ops => exact next_mono_batch_go now ops
  | InvalidateCache ids => exact Nat.le_refl _

theorem dead_create {v : Vfs} (now : Timestamp) (p : VfsPath) (c : String) {id : FileId}
    (hid : id.id < v.next_file_id) (hd : lookupA v.files id = none) :
    lookupA (v.create_file now p c).1.files id = none := by
  cases hp : lookupA v.path_index p with
  | some i =>
    rw [create_file_occupied now c hp]
    exact hd
  | none =>
    rw [create_file_fresh now c hp]
    show lookupA (insertA v.files (FileId.new v.next_file_id)
      (VfsFile.new (FileId.new v.next_file_id) p c v.group_id now)) id = none
    have hne : id ≠ FileId.new v.next_file_id := by
      intro e
      rw [e] at hid
      simp [FileId.new] at hid
    rw [lookupA_insertA_ne _ _ hne]
    exact hd

theorem dead_update {v : Vfs} (now : Timestamp) (tid : FileId) (c : String)
    (ev : Option Nat) {id : FileId} (hd : lookupA v.files id = none) :
    lookupA (v.update_file now tid c ev).1.files id = none := by
  cases htf : lookupA v.files tid with
  | none =>
    rw [update_file_notfound now c ev htf]
    exact hd
  | some g =>
    have hne : id ≠ tid := by
      intro e
      rw [e, htf] at hd
      cases hd
    have hfin : lookupA (v.update_finish now tid g c).1.files id = none := by
      show lookupA (insertA v.files tid (g.update_content c now)) id = none
      rw [lookupA_insertA_ne _ _ hne]
      exact hd
    cases ev with
    | none =>
      rw [update_file_unguarded now c htf]
      exact hfin
    | some e =>
      by_cases he : g.version.val = e
      · rw [update_file_guard_pass now c htf he]
        exact hfin
      · have heq : v.update_file now tid c (some e) =
            (v, .Error (.VersionMismatch e g.version.val)) := by
          simp [Vfs.update_file, htf, he]
        rw [heq]
        exact hd

theorem dead_delete {v : Vfs} (now : Timestamp) (tid : FileId) {id : FileId}
    (hnodup : (keysA v.files).Nodup) (hd : lookupA v.files id = none) :
    lookupA (v.delete_file now tid).1.files id = none := by
  cases htf : lookupA v.files tid with
  | none =>
    rw [delete_file_notfound now htf]
    exact hd
  | some g =>
    rw [delete_file_found now htf]
    show lookupA (eraseA v.files tid) id = none
    by_cases e : id = tid
    · subst e
      exact lookupA_eraseA_self hnodup id
    · rw [lookupA_eraseA_ne _ e]
      exact hd

theorem dead_rename {v : Vfs} (now : Timestamp) (tid : FileId) (np : VfsPath)
    {id : FileId} (hd : lookupA v.files id = none) :
    lookupA (v.rename_file now tid np).1.files id = none := by
  cases hp : lookupA v.path_index np with
  | some i =>
    rw [rename_file_occupied now tid hp]
    exact hd
  | none =>
    cases htf : lookupA v.files tid with
    | none =>
      rw [rename_file_notfound now hp htf]
      exact hd
    | some g =>
      rw [rename_file_ok now hp htf]
      show lookupA (insertA v.files tid { g with path := np, last_modified := now }) id = none
      have hne : id ≠ tid := by
        intro e
        rw [e, htf] at hd
        cases hd
      rw [lookupA_insertA_ne _ _ hne]
      exact hd

theorem dead_batch_op {v : Vfs} (now : Timestamp) (op : BatchWriteOp) {id : FileId}
    (h : VfsInv v) (hid : id.id < v.next_file_id) (hd : lookupA v.files id = none) :
    lookupA (v.apply_batch_op now op).1.files id = none := by
  cases op with
  | Create p c => exact dead_create now p c hid hd
  | Update tid c => exact dead_update now tid c none hd
  | Delete tid => exact dead_delete now tid h.files_nodup hd

theorem dead_batch_go {v : Vfs} (now : Timestamp) (ops : List BatchWriteOp) {id : FileId}
    (h : VfsInv v) (hid : id.id < v.next_file_id) (hd : lookupA v.files id = none) :
    lookupA (v.batch_go now ops).1.files id = none := by
  induction ops generalizing v with
  | nil => exact hd
  | cons op t ih =>
    exact ih (vfsInv_batch_op now op h)
      (Nat.lt_of_lt_of_le hid (next_mono_batch_op now op))
      (dead_batch_op now op h hid hd)

theorem dead_apply {v : Vfs} (now : Timestamp) (c : VfsCommand) {id : FileId}
    (h : VfsInv v) (hid : id.id < v.next_file_id) (hd : lookupA v.files id = none) :
    lookupA (v.apply now c).1.files id = none := by
  cases c with
  | CreateFile p cc => exact dead_create now p cc hid hd
  | UpdateFile tid cc ev => exact dead_update now tid cc ev hd
  | DeleteFile tid => exact dead_delete now tid h.files_nodup hd
  | RenameFile tid np => exact dead_rename now tid np hd
  | BatchWrite ops => exact dead_batch_go now ops h hid hd
  | InvalidateCache ids => exact hd

theorem dead_applyList {v : Vfs} (cmds : List (Timestamp × VfsCommand)) {id : FileId}
    (h : VfsInv v) (hid : id.id < v.next_file_id) (hd : lookupA v.files id = none) :
    lookupA (v.applyList cmds).files id = none := by
  induction cmds generalizing v with
  | nil => exact hd
  | cons c t ih =>
    obtain ⟨now, cmd⟩ := c
    exact ih (vfsInv_apply now cmd h)
      (Nat.lt_of_lt_of_le hid (next_mono_apply now cmd))
      (dead_apply now cmd h hid hd)

theorem version_le_create_file {v : Vfs} (now : Timestamp) (p : VfsPath) (c : String)
    (h : VfsInv v) {id : FileId} {f f' : VfsFile}
    (hf : lookupA v.files id = some f)
    (hf' : lookupA (v.create_file now p c).1.files id = some f') :
    f.version.val ≤ f'.version.val := by
  cases hp : lookupA v.path_index p with
  | some i =>
    rw [create_file_occupied now c hp] at hf'
    exact eq_version_le (hf.symm.trans hf')
  | none =>
    rw [create_file_fresh now c hp] at hf'
    have hf'' : lookupA (insertA v.files (FileId.new v.next_file_id)
        (VfsFile.new (FileId.new v.next_file_id) p c v.group_id now)) id = some f' := hf'
    have hne : id ≠ FileId.new v.next_file_id := by
      intro e
      have hb := h.ids_bounded id (mem_keysA_of_lookupA hf)
      rw [e] at hb
      simp [FileId.new] at hb
    rw [lookupA_insertA_ne _ _ hne] at hf''
    exact eq_version_le (hf.symm.trans hf'')

theorem version_le_update_file {v : Vfs} (now : Timestamp) (tid : FileId) (c : String)
    (ev : Option Nat) (h : VfsInv v) {id : FileId} {f f' : VfsFile}
    (hf : lookupA v.files id = some f)
    (hf' : lookupA (v.update_file now tid c ev).1.files id = some f') :
    f.version.val ≤ f'.version.val := by
  cases htf : lookupA v.files tid with
  | none =>
    rw [update_file_notfound now c ev htf] at hf'
    exact eq_version_le (hf.symm.trans hf')
  | some g =>
    have hfinish : lookupA (v.update_finish now tid g c).1.files id = some f' →
        f.version.val ≤ f'.version.val := by
      intro hfin
      have hfin' : lookupA (insertA v.files tid (g.update_content c now)) id = some f' := hfin
      by_cases e : id = tid
      · subst e
        rw [lookupA_insertA_self] at hfin'
        rw [htf] at hf
        injection hf with hf
        injection hfin' with hfin'
        subst hf
        rw [← hfin']
        exact Nat.le_succ _
      · rw [lookupA_insertA_ne _ _ e] at hfin'
        exact eq_version_le (hf.symm.trans hfin')
    cases ev with
    | none =>
      rw [update_file_unguarded now c htf] at hf'
      exact hfinish hf'
    | some e =>
      by_cases he : g.version.val = e
      · rw [update_file_guard_pass now c htf he] at hf'
        exact hfinish hf'
      · have heq : v.update_file now tid c (some e) =
            (v, .Error (.VersionMismatch e g.version.val)) := by
          simp [Vfs.update_file, htf, he]
        rw [heq] at hf'
        exact eq_version_le (hf.symm.trans hf')

theorem version_le_delete_file {v : Vfs} (now : Timestamp) (tid : FileId)
    (h : VfsInv v) {id : FileId} {f f' : VfsFile}
    (hf : lookupA v.files id = some f)
    (hf' : lookupA (v.delete_file now tid).1.files id = some f') :
    f.version.val ≤ f'.version.val := by
  cases htf : lookupA v.files tid with
  | none =>
    rw [delete_file_notfound now htf] at hf'
    exact eq_version_le (hf.symm.trans hf')
  | some g =>
    rw [delete_file_found now htf] at hf'
    have hf'' : lookupA (eraseA v.files tid) id = some f' := hf'
    have hne : id ≠ tid := by
      intro e
      subst e
      rw [lookupA_eraseA_self h.files_nodup] at hf''
      cases hf''
    rw [lookupA_eraseA_ne _ hne] at hf''
    exact eq_version_le (hf.symm.trans hf'')

theorem version_le_rename_file {v : Vfs} (now : Timestamp) (tid : FileId) (np : VfsPath)
    {id : FileId} {f f' : VfsFile}
    (hf : lookupA v.files id = some f)
    (hf' : lookupA (v.rename_file now tid np).1.files id = some f') :
    f.version.val ≤ f'.version.val := by
  cases hp : lookupA v.path_index np with
  | some i =>
    rw [rename_file_occupied now tid hp] at hf'
    exact eq_version_le (hf.symm.trans hf')
  | none =>
    cases htf : lookupA v.files tid with
    | none =>
      rw [rename_file_notfound now hp htf] at hf'
      exact eq_version_le (hf.symm.trans hf')
    | some g =>
      rw [rename_file_ok now hp htf] at hf'
      have hf'' : lookupA (insertA v.files tid
          { g with path := np, last_modified := now }) id = some f' := hf'
      by_cases e : id = tid
      · subst e
        rw [lookupA_insertA_self] at hf''
        rw [htf] at hf
        injection hf with hf
        injection hf'' with hf''
        subst hf
        rw [← hf'']
      · rw [lookupA_insertA_ne _ _ e] at hf''
        exact eq_version_le (hf.symm.trans hf'')

theorem version_le_batch_op {v : Vfs} (now : Timestamp) (op : BatchWriteOp)
    (h : VfsInv v) {id : FileId} {f f' : VfsFile}
    (hf : lookupA v.files id = some f)
    (hf' : lookupA (v.apply_batch_op now op).1.files id = some f') :
    f.version.val ≤ f'.version.val := by
  cases op with
  | Create p c => exact version_le_create_file now p c h hf hf'
  | Update tid c => exact version_le_update_file now tid c none h hf hf'
  | Delete tid => exact version_le_delete_file now tid h hf hf'

theorem version_le_batch_go {v : Vfs} (now : Timestamp) (ops : List BatchWriteOp)
    (h : VfsInv v) {id : FileId} {f f' : VfsFile}
    (hf : lookupA v.files id = some f)
    (hf' : lookupA (v.batch_go now ops).1.files id = some f') :
    f.version.val ≤ f'.version.val := by
  induction ops generalizing v f with
  | nil => exact eq_version_le (hf.symm.trans hf')
  | cons op t ih =>
    have hmidtail : lookupA ((v.apply_batch_op now op).1.batch_go now t).1.files id =
        some f' := hf'
    cases hmid : lookupA (v.apply_batch_op now op).1.files id with
    | some g =>
      exact Nat.le_trans (version_le_batch_op now op h hf hmid)
        (ih (vfsInv_batch_op now op h) hmid hmidtail)
    | none =>
      have hb := h.ids_bounded id (mem_keysA_of_lookupA hf)
      have hdead := dead_batch_go now t (vfsInv_batch_op now op h)
        (Nat.lt_of_lt_of_le hb (next_mono_batch_op now op)) hmid
      rw [hdead] at hmidtail
      cases hmidtail

theorem version_le_apply {v : Vfs} (now : Timestamp) (c : VfsCommand)
    (h : VfsInv v) {id : FileId} {f f' : VfsFile}
    (hf : lookupA v.files id = some f)
    (hf' : lookupA (v.apply now c).1.files id = some f') :
    f.version.val ≤ f'.version.val := by
  cases c with
  | CreateFile p cc => exact version_le_create_file now p cc h hf hf'
  | UpdateFile tid cc ev => exact version_le_update_file now tid cc ev h hf hf'
  | DeleteFile tid => exact version_le_delete_file now tid h hf hf'
  | RenameFile tid np => exact version_le_rename_file now tid np hf hf'
  | BatchWrite ops => exact version_le_batch_go now ops h hf hf'
  | InvalidateCache ids => exact eq_version_le (hf.symm.trans hf')

theorem version_le_applyList {v : Vfs} (cmds : List (Timestamp × VfsCommand))
    (h : VfsInv v) {id : FileId} {f f' : VfsFile}
    (hf : lookupA v.files id = some f)
    (hf' : lookupA (v.applyList cmds).files id = some f') :
    f.version.val ≤ f'.version.val := by
  induction cmds generalizing v f with
  | nil => exact eq_version_le (hf.symm.trans hf')
  | cons c t ih =>
    obtain ⟨now, cmd⟩ := c
    have htail : lookupA ((v.apply now cmd).1.applyList t).files id = some f' := hf'
    cases hmid : lookupA (v.apply now cmd).1.files id with
    | some g =>
      exact Nat.le_trans (version_le_apply now cmd h hf hmid)
        (ih (vfsInv_apply now cmd h) hmid htail)
    | none =>
      have hb := h.ids_bounded id (mem_keysA_of_lookupA hf)
      have hdead := dead_applyList t (vfsInv_apply now cmd h)
        (Nat.lt_of_lt_of_le hb (next_mono_apply now cmd)) hmid
      rw [hdead] at htail
      cases htail

theorem applyList_append (v : Vfs) (l₁ l₂ : List (Timestamp × VfsCommand)) :
    v.applyList (l₁ ++ l₂) = (v.applyList l₁).applyList l₂ := by
  induction l₁ generalizing v with
  | nil => rfl
  | cons c t ih =>
    obtain ⟨now, cmd⟩ := c
    exact ih (v.apply now cmd).1

/-- C5: version semantics.  A file created by a successful CreateFile has
version 0; a successful UpdateFile bumps the stored version by exactly 1; a
successful RenameFile leaves the version unchanged; and over any command
sequence applied to a fresh VFS a file's version never decreases. -/
theorem C5_version_semantics :
    (∀ (v : Vfs) (now : Timestamp) (p : VfsPath) (c : String) (v' : Vfs) (id : FileId),
      v.apply now (.CreateFile p c) = (v', .Created id) →
      ∃ f, lookupA v'.files id = some f ∧ f.version = FileVersion.initial) ∧
    (∀ (v : Vfs) (now : Timestamp) (tid : FileId) (c : String) (ev : Option Nat)
      (v' : Vfs) (rid : FileId),
      v.apply now (.UpdateFile tid c ev) = (v', .Ok (some rid)) →
      ∃ f f', lookupA v.files tid = some f ∧ lookupA v'.files tid = some f' ∧
        f'.version.val = f.version.val + 1) ∧
    (∀ (v : Vfs) (now : Timestamp) (tid : FileId) (np : VfsPath) (v' : Vfs) (rid : FileId),
      v.apply now (.RenameFile tid np) = (v', .Ok (some rid)) →
      ∃ f f', lookupA v.files tid = some f ∧ lookupA v'.files tid = some f' ∧
        f'.version = f.version) ∧
    (∀ (g : RaftGroupId) (cmds₁ cmds₂ : List (Timestamp × VfsCommand)) (id : FileId)
      (f f' : VfsFile),
      lookupA ((Vfs.new g).applyList cmds₁).files id = some f →
      lookupA ((Vfs.new g).applyList (cmds₁ ++ cmds₂)).files id = some f' →
      f.version.val ≤ f'.version.val) := by
  refine ⟨?create, ?update, ?rename, ?mono⟩
  · intro v now p c v' id happly
    have happly' : v.create_file now p c = (v', .Created id) := happly
    cases hp : lookupA v.path_index p with
    | some i =>
      rw [create_file_occupied now c hp] at happly'
      simp at happly'
    | none =>
      rw [create_file_fresh now c hp] at happly'
      injection happly' with h1 h2
      injection h2 with h2
      subst h2
      subst h1
      exact ⟨_, lookupA_insertA_self _ _ _, rfl⟩
  · intro v now tid c ev v' rid happly
    have happly' : v.update_file now tid c ev = (v', .Ok (some rid)) := happly
    cases htf : lookupA v.files tid with
    | none =>
      rw [update_file_notfound now c ev htf] at happly'
      simp at happly'
    | some f =>
      have hfinish : v.update_finish now tid f c = (v', .Ok (some rid)) →
          ∃ f₀ f', some f = some f₀ ∧ lookupA v'.files tid = some f' ∧
            f'.version.val = f₀.version.val + 1 := by
        intro hfin
        have hfin' : ({ v with
            files := insertA v.files tid (f.update_content c now)
            events := v.events ++
              [{ change_type := .Modified, file_id := tid, path := f.path,
                 version := (f.update_content c now).version, timestamp := now }] },
            (.Ok (some tid) : VfsResponse)) = (v', .Ok (some rid)) := hfin
        injection hfin' with h1 h2
        subst h1
        exact ⟨f, f.update_content c now, rfl, lookupA_insertA_self _ _ _, rfl⟩
      cases ev with
      | none =>
        rw [update_file_unguarded now c htf] at happly'
        exact hfinish happly'
      | some e =>
        by_cases he : f.version.val = e
        · rw [update_file_guard_pass now c htf he] at happly'
          exact hfinish happly'
        · have heq : v.update_file now tid c (some e) =
              (v, .Error (.VersionMismatch e f.version.val)) := by
            simp [Vfs.update_file, htf, he]
          rw [heq] at happly'
          simp at happly'
  · intro v now tid np v' rid happly
    have happly' : v.rename_file now tid np = (v', .Ok (some rid)) := happly
    cases hp : lookupA v.path_index np with
    | some i =>
      rw [rename_file_occupied now tid hp] at happly'
      simp at happly'
    | none =>
      cases htf : lookupA v.files tid with
      | none =>
        rw [rename_file_notfound now hp htf] at happly'
        simp at happly'
      | some f =>
        rw [rename_file_ok now hp htf] at happly'
        injection happly' with h1 h2
        subst h1
        exact ⟨f, { f with path := np, last_modified := now }, rfl,
          lookupA_insertA_self _ _ _, rfl⟩
  · intro g cmds₁ cmds₂ id f f' hf hf'
    rw [applyList_append] at hf'
    exact version_le_applyList cmds₂ (vfsInv_applyList cmds₁ (vfsInv_new g)) hf hf'

/-- Concrete run of C5 on the one-file states: version 0 after create, 1
after the update, unchanged across a rename, and monotone across the
create-update sequence. -/
theorem C5_version_semantics_witness :
    (∃ f, lookupA vfsA.files ⟨1⟩ = some f ∧ f.version = FileVersion.initial) ∧
    (∃ f f', lookupA vfsA.files ⟨1⟩ = some f ∧ lookupA vfsV1.files ⟨1⟩ = some f' ∧
      f'.version.val = f.version.val + 1) ∧
    (∃ f f', lookupA vfsV1.files ⟨1⟩ = some f ∧
      lookupA (vfsV1.apply ⟨0⟩ (.RenameFile ⟨1⟩ (VfsPath.new "/b.rs"))).1.files ⟨1⟩ =
        some f' ∧ f'.version = f.version) ∧
    (∃ f f', lookupA ((Vfs.new ⟨1⟩).applyList
        [(⟨0⟩, .CreateFile (VfsPath.new "/a.rs") "x")]).files ⟨1⟩ = some f ∧
      lookupA ((Vfs.new ⟨1⟩).applyList
        ([(⟨0⟩, .CreateFile (VfsPath.new "/a.rs") "x")] ++
         [(⟨0⟩, .UpdateFile ⟨1⟩ "y" (some 0))])).files ⟨1⟩ = some f' ∧
      f.version.val ≤ f'.version.val) := by
  refine ⟨?_, ?_, ?_, ?_⟩
  · exact C5_version_semantics.1 (Vfs.new ⟨1⟩) ⟨0⟩ (VfsPath.new "/a.rs") "x" vfsA ⟨1⟩
      (by decide)
  · exact C5_version_semantics.2.1 vfsA ⟨0⟩ ⟨1⟩ "y" (some 0) vfsV1 ⟨1⟩ (by decide)
  · exact C5_version_semantics.2.2.1 vfsV1 ⟨0⟩ ⟨1⟩ (VfsPath.new "/b.rs")
      (vfsV1.apply ⟨0⟩ (.RenameFile ⟨1⟩ (VfsPath.new "/b.rs"))).1 ⟨1⟩ (by decide)
  · refine ⟨_, _, rfl, rfl, ?_⟩
    exact C5_version_semantics.2.2.2 ⟨1⟩
      [(⟨0⟩, .CreateFile (VfsPath.new "/a.rs") "x")]
      [(⟨0⟩, .UpdateFile ⟨1⟩ "y" (some 0))] ⟨1⟩ _ _ rfl rfl

/-! ### Line-ending detection -/

theorem strContainsSeq_eq_true_iff (cs pat : List Char) :
    strContainsSeq cs pat = true ↔ List.IsInfix pat cs := by
  induction cs with
  | nil => simp [strContainsSeq, List.isEmpty_iff, List.infix_nil]
  | cons c rest ih =>
    simp [strContainsSeq, Bool.or_eq_true, List.isPrefixOf_iff_prefix, ih,
      List.infix_cons_iff]

/-- C8, as amended: detection prefers CRLF over CR over LF by presence
anywhere in the content, not by first occurrence — detect answers CrLf iff a
CRLF occurs anywhere, Cr iff a CR occurs but no CRLF does, and Lf iff no CR
occurs at all (the LF default). -/
theorem C8_detect_presence_priority (s : String) :
    (LineEnding.detect s = .CrLf ↔ List.IsInfix ['\r', '\n'] s.data) ∧
    (LineEnding.detect s = .Cr ↔ ('\r' ∈ s.data ∧ ¬ List.IsInfix ['\r', '\n'] s.data)) ∧
    (LineEnding.detect s = .Lf ↔ '\r' ∉ s.data) := by
  have hcr : s.data.contains '\r' = true ↔ '\r' ∈ s.data := List.elem_iff
  unfold LineEnding.detect
  by_cases h1 : strContainsSeq s.data ['\r', '\n'] = true
  · have hinf : List.IsInfix ['\r', '\n'] s.data := (strContainsSeq_eq_true_iff _ _).mp h1
    have hmem : '\r' ∈ s.data := hinf.subset (by simp)
    simp [h1, hinf, hmem]
  · have hninf : ¬ List.IsInfix ['\r', '\n'] s.data :=
      fun hh => h1 ((strContainsSeq_eq_true_iff _ _).mpr hh)
    by_cases h2 : s.data.contains '\r' = true
    · have hmem : '\r' ∈ s.data := hcr.mp h2
      simp [h1, h2, hninf, hmem]
    · have hmem : '\r' ∉ s.data := fun hm => h2 (hcr.mpr hm)
      simp [h1, h2, hninf, hmem]

/-! ### Log-store refinement -/

theorem kvInsert_append_of_lt {α : Type} {l : List (Nat × α)} {k : Nat} (a : α)
    (h : ∀ p ∈ l, p.1 < k) : kvInsert l k a = l ++ [(k, a)] := by
  induction l with
  | nil => rfl
  | cons p t ih =>
    obtain ⟨k₀, a₀⟩ := p
    have hk₀ : k₀ < k := h (k₀, a₀) (List.mem_cons_self _ _)
    simp only [kvInsert]
    rw [if_neg (by omega), if_neg (by omega),
      ih (fun q hq => h q (List.mem_cons_of_mem _ hq))]
    rfl

theorem getLast?_map {α β : Type} (f : α → β) (l : List α) :
    (l.map f).getLast? = l.getLast?.map f := by
  induction l with
  | nil => rfl
  | cons a t ih =>
    cases t with
    | nil => rfl
    | cons b t' => simpa using ih

theorem ascending_head_lt {e : Entry} {es : List Entry}
    (h : ascendingIndices (e :: es) = true) :
    (∀ e' ∈ es, e.log_id.index < e'.log_id.index) ∧ ascendingIndices es = true := by
  induction es generalizing e with
  | nil => simp [ascendingIndices]
  | cons e₂ es' ih =>
    simp only [ascendingIndices, Bool.and_eq_true, decide_eq_true_eq] at h
    obtain ⟨h12, h2⟩ := h
    obtain ⟨hall, htail⟩ := ih h2
    refine ⟨?_, h2⟩
    intro e' he'
    rcases List.mem_cons.mp he' with rfl | hm
    · exact h12
    · exact Nat.lt_trans h12 (hall e' hm)

theorem rel_insert_entry {s : RocksDbLogStorage} {r : RefLog} (hrel : LogRel s r)
    {e : Entry} (hgt : ∀ c ∈ r.entries, c.log_id.index < e.log_id.index)
    (hb : e.log_id.index < U64MAX) :
    LogRel
      { s with
        db_logs := kvInsert s.db_logs e.log_id.index e
        log_cache := kvInsert s.log_cache e.log_id.index e }
      { r with entries := r.entries ++ [e] } := by
  have hkeys : ∀ p ∈ logMapOf r.entries, p.1 < e.log_id.index := by
    intro p hp
    obtain ⟨c, hc, rfl⟩ := List.mem_map.mp hp
    exact hgt c hc
  constructor
  · show kvInsert s.log_cache e.log_id.index e = logMapOf (r.entries ++ [e])
    rw [hrel.cache_eq, kvInsert_append_of_lt e hkeys]
    simp [logMapOf]
  · show kvInsert s.db_logs e.log_id.index e = logMapOf (r.entries ++ [e])
    rw [hrel.db_eq, kvInsert_append_of_lt e hkeys]
    simp [logMapOf]
  · exact hrel.purged_eq
  · show ((r.entries ++ [e]).map (fun e => e.log_id.index)).Pairwise (· < ·)
    rw [List.map_append]
    rw [List.pairwise_append]
    refine ⟨hrel.sorted, by simp, ?_⟩
    intro a ha b hb'
    obtain ⟨c, hc, rfl⟩ := List.mem_map.mp ha
    simp only [List.map_cons, List.map_nil, List.mem_singleton] at hb'
    subst hb'
    exact hgt c hc
  · intro c hc
    rcases List.mem_append.mp hc with hc | hc
    · exact hrel.bounded c hc
    · rw [List.mem_singleton] at hc
      subst hc
      exact hb

theorem rel_append {s : RocksDbLogStorage} {r : RefLog} (hrel : LogRel s r)
    (es : List Entry) (hasc : ascendingIndices es = true)
    (hub : ∀ e ∈ es, e.log_id.index < U64MAX)
    (hgt : ∀ e ∈ es, ∀ c ∈ r.entries, c.log_id.index < e.log_id.index) :
    LogRel (s.append es) (r.append es) := by
  induction es generalizing s r with
  | nil =>
    have hs : s.append [] = s := rfl
    have hr : r.append [] = r := by
      simp [RefLog.append]
    rw [hs, hr]
    exact hrel
  | cons e es' ih =>
    obtain ⟨hhead, htail⟩ := ascending_head_lt hasc
    have hrel1 := rel_insert_entry hrel
      (fun c hc => hgt e (List.mem_cons_self _ _) c hc)
      (hub e (List.mem_cons_self _ _))
    have hgt' : ∀ e' ∈ es', ∀ c ∈ r.entries ++ [e],
        c.log_id.index < e'.log_id.index := by
      intro e' he' c hc
      rcases List.mem_append.mp hc with hc | hc
      · exact hgt e' (List.mem_cons_of_mem _ he') c hc
      · rw [List.mem_singleton] at hc
        subst hc
        exact hhead e' he'
    have hub' : ∀ e' ∈ es', e'.log_id.index < U64MAX :=
      fun e' he' => hub e' (List.mem_cons_of_mem _ he')
    have hstep := ih hrel1 htail hub' hgt'
    have hr : ({ r with entries := r.entries ++ [e] } : RefLog).append es' =
        r.append (e :: es') := by
      simp [RefLog.append]
    rw [← hr]
    exact hstep

theorem rel_truncate {s : RocksDbLogStorage} {r : RefLog} (hrel : LogRel s r)
    (id : LogId) : LogRel (s.truncate id) (r.truncate id) := by
  have hfil : ∀ (p : Nat → Bool),
      (logMapOf r.entries).filter (fun q => p q.1) =
        logMapOf (r.entries.filter (fun e => p e.log_id.index)) := by
    intro p
    simp only [logMapOf]
    rw [List.filter_map]
    rfl
  constructor
  · show s.log_cache.filter (fun p => decide (p.1 < id.index)) =
      logMapOf (r.entries.filter (fun e => decide (e.log_id.index < id.index)))
    rw [hrel.cache_eq]
    exact hfil (fun k => decide (k < id.index))
  · show s.db_logs.filter (fun p => decide (¬ (id.index ≤ p.1 ∧ p.1 < U64MAX))) =
      logMapOf (r.entries.filter (fun e => decide (e.log_id.index < id.index)))
    rw [hrel.db_eq]
    have hcongr : (logMapOf r.entries).filter
        (fun p => decide (¬ (id.index ≤ p.1 ∧ p.1 < U64MAX))) =
        (logMapOf r.entries).filter (fun p => decide (p.1 < id.index)) := by
      apply List.filter_congr
      intro p hp
      obtain ⟨c, hc, rfl⟩ := List.mem_map.mp hp
      have := hrel.bounded c hc
      simp only [decide_eq_decide]
      omega
    rw [hcongr]
    exact hfil (fun k => decide (k < id.index))
  · exact hrel.purged_eq
  · exact hrel.sorted.sublist ((List.filter_sublist _).map _)
  · intro c hc
    exact hrel.bounded c (List.mem_of_mem_filter hc)

theorem rel_purge {s : RocksDbLogStorage} {r : RefLog} (hrel : LogRel s r)
    (id : LogId) : LogRel (s.purge id) (r.purge id) := by
  have hfil : ∀ (p : Nat → Bool),
      (logMapOf r.entries).filter (fun q => p q.1) =
        logMapOf (r.entries.filter (fun e => p e.log_id.index)) := by
    intro p
    simp only [logMapOf]
    rw [List.filter_map]
    rfl
  constructor
  · show s.log_cache.filter (fun p => decide (id.index + 1 ≤ p.1)) =
      logMapOf (r.entries.filter (fun e => decide (id.index < e.log_id.index)))
    rw [hrel.cache_eq]
    have hcongr : (logMapOf r.entries).filter (fun p => decide (id.index + 1 ≤ p.1)) =
        (logMapOf r.entries).filter (fun p => decide (id.index < p.1)) := by
      apply List.filter_congr
      intro p hp
      simp only [decide_eq_decide]
      omega
    rw [hcongr]
    exact hfil (fun k => decide (id.index < k))
  · show s.db_logs.filter (fun p => decide (¬ p.1 < id.index + 1)) =
      logMapOf (r.entries.filter (fun e => decide (id.index < e.log_id.index)))
    rw [hrel.db_eq]
    have hcongr : (logMapOf r.entries).filter (fun p => decide (¬ p.1 < id.index + 1)) =
        (logMapOf r.entries).filter (fun p => decide (id.index < p.1)) := by
      apply List.filter_congr
      intro p hp
      simp only [decide_eq_decide]
      omega
    rw [hcongr]
    exact hfil (fun k => decide (id.index < k))
  · rfl
  · exact hrel.sorted.sublist ((List.filter_sublist _).map _)
  · intro c hc
    exact hrel.bounded c (List.mem_of_mem_filter hc)

theorem rel_log_state {s : RocksDbLogStorage} {r : RefLog} (hrel : LogRel s r) :
    s.get_log_state = r.log_state := by
  unfold RocksDbLogStorage.get_log_state RefLog.log_state kvLast
  rw [hrel.cache_eq, hrel.db_eq, hrel.purged_eq]
  rw [show logMapOf r.entries = r.entries.map (fun e => (e.log_id.index, e)) from rfl]
  rw [getLast?_map]
  cases hl : r.entries.getLast? with
  | some e => rfl
  | none => rfl

theorem rel_empty : LogRel RocksDbLogStorage.empty RefLog.empty := by
  constructor <;> simp [RocksDbLogStorage.empty, RefLog.empty, logMapOf]

theorem rel_run {s : RocksDbLogStorage} {r : RefLog} (ops : List LogOp)
    (hrel : LogRel s r) (hgood : goodOps r.entries ops = true) :
    LogRel (s.run ops) (r.run ops) := by
  induction ops generalizing s r with
  | nil => exact hrel
  | cons op t ih =>
    cases op with
    | append es =>
      simp only [goodOps, Bool.and_eq_true] at hgood
      obtain ⟨⟨⟨hasc, hub⟩, hgt⟩, hrest⟩ := hgood
      have hub' : ∀ e ∈ es, e.log_id.index < U64MAX := by
        intro e he
        exact of_decide_eq_true (List.all_eq_true.mp hub e he)
      have hgt' : ∀ e ∈ es, ∀ c ∈ r.entries, c.log_id.index < e.log_id.index := by
        intro e he c hc
        exact of_decide_eq_true
          (List.all_eq_true.mp (List.all_eq_true.mp hgt e he) c hc)
      exact ih (rel_append hrel es hasc hub' hgt') hrest
    | truncate id =>
      simp only [goodOps] at hgood
      exact ih (rel_truncate hrel id) hgood
    | purge id =>
      simp only [goodOps] at hgood
      exact ih (rel_purge hrel id) hgood

/-- C7: for every sequence of append, truncate and purge operations that
respects the log-storage contract, get_log_state on the RocksDB-backed store
agrees with the naive reference model of the log; and whenever the store
holds no entries, the reported last log id equals the last purged log id. -/
theorem C7_log_state_refinement :
    (∀ ops : List LogOp, goodOps [] ops = true →
      (RocksDbLogStorage.empty.run ops).get_log_state =
        (RefLog.empty.run ops).log_state) ∧
    (∀ s : RocksDbLogStorage, s.log_cache = [] → s.db_logs = [] →
      s.get_log_state.last_log_id = s.get_log_state.last_purged_log_id) := by
  constructor
  · intro ops hgood
    exact rel_log_state (rel_run ops rel_empty hgood)
  · intro s hc hd
    simp [RocksDbLogStorage.get_log_state, kvLast, hc, hd]

/-- Concrete run of C7: the contract-respecting sequence c7ops gives the same
log state in both models, and the purged-empty store reports its purge marker
as the last log id. -/
theorem C7_log_state_refinement_witness :
    (RocksDbLogStorage.empty.run c7ops).get_log_state =
      (RefLog.empty.run c7ops).log_state ∧
    c7purged.get_log_state.last_log_id = c7purged.get_log_state.last_purged_log_id := by
  constructor
  · exact C7_log_state_refinement.1 c7ops (by decide)
  · exact C7_log_state_refinement.2 c7purged (by decide) (by decide)

end VRaftLS
